import Mathlib

/-!
Shallow embedding of the record reconciliation engine of `qself`:
the tweet and reading data model, the generic slice utilities
(`sliceUniq`, `sliceKeepOnly`, `sliceReverse`), the anti-churn pass
`flipDuplicateTweetsOnTrivialChanges`, and the two reconcilers
`mergeTweets` and `mergeReadings`.

Go machine integers are modelled as unbounded `Int` (no claim under
study concerns overflow); Go slices are modelled as `List`; the only
place where in-place mutation of a caller-visible slice matters
(`sliceKeepOnly` inside `mergeReadings`) is modelled by an explicit
state-passing loop that returns both the final backing array and the
kept-prefix length.
-/

namespace Qself

/-- `absInt` from the source: absolute value on Go ints. -/
def absInt (x : Int) : Int :=
  if x < 0 then -x else x

/-- `TweetEntitiesMedia`: an image or video stored in a tweet. -/
structure TweetEntitiesMedia where
  id : Int
  type : String
  url : String
deriving DecidableEq

/-- `TweetEntitiesURL`: a URL referenced in a tweet. -/
structure TweetEntitiesURL where
  displayURL : String
  expandedURL : String
  url : String
deriving DecidableEq

/-- `TweetEntitiesUserMention`: another user being mentioned in a tweet. -/
structure TweetEntitiesUserMention where
  user : String
  userID : Int
deriving DecidableEq

/-- `TweetEntities`: multimedia entries that may be contained in a tweet. -/
structure TweetEntities where
  medias : List TweetEntitiesMedia
  urls : List TweetEntitiesURL
  userMentions : List TweetEntitiesUserMention
deriving DecidableEq

/-- `TweetReply`: reply information for when a tweet is a reply. -/
structure TweetReply where
  statusID : Int
  user : String
  userID : Int
deriving DecidableEq

/-- `TweetRetweet`: retweet information for when a tweet is a retweet. -/
structure TweetRetweet where
  statusID : Int
  user : String
  userID : Int
deriving DecidableEq

/-- `Tweet`: a single tweet stored to a TOML file.  `created_at` is an
opaque timestamp, modelled as an integer. -/
structure Tweet where
  createdAt : Int
  entities : Option TweetEntities
  favoriteCount : Int
  id : Int
  reply : Option TweetReply
  retweet : Option TweetRetweet
  retweetCount : Int
  text : String
deriving DecidableEq

/-- `ReadingAuthor`: a single Goodreads author stored to a TOML file. -/
structure ReadingAuthor where
  id : Int
  name : String
deriving DecidableEq

/-- `Reading`: a single Goodreads book stored to a TOML file. -/
structure Reading where
  authors : List ReadingAuthor
  id : Int
  isbn : String
  isbn13 : String
  numPages : Int
  publishedYear : Int
  readAt : Int
  rating : Int
  review : String
  reviewID : Int
  title : String
deriving DecidableEq

/-- `sliceReverse` from the source: reverses a slice. -/
def sliceReverse {α : Type} (s : List α) : List α :=
  s.reverse

/-- The loop of `sliceUniq` from the source: walks the slice keeping,
for each key, only the first element carrying it; `seen` is the set of
keys already emitted (the Go code uses a map as a set). -/
def sliceUniqLoop {α κ : Type} [DecidableEq κ] (key : α → κ) :
    List α → List κ → List α
  | [], _ => []
  | x :: xs, seen =>
    if key x ∈ seen then sliceUniqLoop key xs seen
    else x :: sliceUniqLoop key xs (key x :: seen)

/-- `sliceUniq` from the source: first-occurrence-wins deduplication of
a slice by extracted key. -/
def sliceUniq {α κ : Type} [DecidableEq κ] (key : α → κ) (s : List α) : List α :=
  sliceUniqLoop key s []

/-- The membership test of `sliceKeepOnly` from the source: the Go code
collects `s2`'s keys into a set `s2Values` and keeps `s1` items whose
key is a member. -/
def keepOnlyPred {α β κ : Type} [DecidableEq κ] (s2 : List β)
    (key1 : α → κ) (key2 : β → κ) (x : α) : Bool :=
  decide (key1 x ∈ s2.map key2)

/-- The loop of `sliceKeepOnly` from the source, as explicit state
passing over the backing array: index `i` walks the array, index `j`
counts kept items, and a kept item is written back at position `j`
(`s1Slice.Index(j).Set(item)`).  The fuel argument equals the number of
loop iterations remaining. -/
def keepOnlyLoop {α : Type} (pred : α → Bool) :
    Nat → List α → Nat → Nat → List α × Nat
  | 0, arr, _, j => (arr, j)
  | n + 1, arr, i, j =>
    match arr[i]? with
    | none => (arr, j)
    | some item =>
      if pred item then keepOnlyLoop pred n (arr.set j item) (i + 1) (j + 1)
      else keepOnlyLoop pred n arr (i + 1) j

/-- One full run of `sliceKeepOnly`'s loop over `arr`, returning the
final backing array (what the caller's slice shows after the call,
since the write at `j` happens in place) and the kept count `j`. -/
def sliceKeepOnlyRun {α : Type} (pred : α → Bool) (arr : List α) : List α × Nat :=
  keepOnlyLoop pred arr.length arr 0 0

/-- `sliceKeepOnly` from the source: keeps only items of `s1` whose key
is also present among the keys of `s2`; the Go function returns
`s1Slice.Slice(0, j)`, the kept prefix of the compacted backing array. -/
def sliceKeepOnly {α β κ : Type} [DecidableEq κ] (s1 : List α) (s2 : List β)
    (key1 : α → κ) (key2 : β → κ) : List α :=
  let run := sliceKeepOnlyRun (keepOnlyPred s2 key1 key2) s1
  run.1.take run.2

/-- The swap test of `flipDuplicateTweetsOnTrivialChanges` from the
source: adjacent tweets are swapped exactly when their identifiers
match, their text matches, their entities are deeply equal, and both
the favorite and retweet count deltas are strictly below 3. -/
def flipShouldSwap (a b : Tweet) : Bool :=
  if a.id ≠ b.id then false
  else if a.text ≠ b.text then false
  else if a.entities ≠ b.entities then false
  else
    decide (absInt (a.favoriteCount - b.favoriteCount) < 3) &&
      decide (absInt (a.retweetCount - b.retweetCount) < 3)

/-- `flipDuplicateTweetsOnTrivialChanges` from the source: a single
left-to-right pass over adjacent pairs `(i, i+1)`; when the swap test
holds the pair is exchanged in place, and in either case the pass moves
on to the pair `(i+1, i+2)` formed after the potential swap. -/
def flipDuplicateTweetsOnTrivialChanges : List Tweet → List Tweet
  | [] => []
  | [a] => [a]
  | a :: b :: rest =>
    if flipShouldSwap a b then
      b :: flipDuplicateTweetsOnTrivialChanges (a :: rest)
    else
      a :: flipDuplicateTweetsOnTrivialChanges (b :: rest)
termination_by l => l.length

/-- The comparison `s[i].ID < s[j].ID` used by `mergeTweets`'s stable
sort, as the Boolean `le` relation of `mergeSort` (Go's
`sort.SliceStable` with a strict `less` and Lean's `mergeSort` with a
lax `le` both keep the earlier element first on ties). -/
def tweetLE (a b : Tweet) : Bool :=
  decide (a.id ≤ b.id)

/-- The comparison `s[i].ReviewID < s[j].ReviewID` used by
`mergeReadings`'s stable sort, as the Boolean `le` relation of
`mergeSort`. -/
def readingLE (a b : Reading) : Bool :=
  decide (a.reviewID ≤ b.reviewID)

/-- `mergeTweets` from the source: concatenate fresh API tweets and
existing tweets, stable-sort ascending by identifier, run the
anti-churn pass, deduplicate first-occurrence-wins by identifier, and
reverse into descending order. -/
def mergeTweets (apiTweets existingTweets : List Tweet) : List Tweet :=
  let s := apiTweets ++ existingTweets
  let s := s.mergeSort tweetLE
  let s := flipDuplicateTweetsOnTrivialChanges s
  let sMerged := sliceUniq (fun t => t.id) s
  sliceReverse sMerged

/-- `mergeReadings` from the source, with the caller-visible after
state of the `existingReadings` slice made explicit: the first
component is the returned merged list; the second is the backing array
of `existingReadings` after `sliceKeepOnly` compacted it in place. -/
def mergeReadingsFull (apiReadings existingReadings : List Reading) :
    List Reading × List Reading :=
  let run := sliceKeepOnlyRun
    (keepOnlyPred apiReadings (fun r => r.reviewID) (fun r => r.reviewID))
    existingReadings
  let kept := run.1.take run.2
  let s := apiReadings ++ kept
  let s := s.mergeSort readingLE
  let sMerged := sliceUniq (fun r => r.reviewID) s
  (sliceReverse sMerged, run.1)

/-- `mergeReadings` from the source: the merged list it returns. -/
def mergeReadings (apiReadings existingReadings : List Reading) : List Reading :=
  (mergeReadingsFull apiReadings existingReadings).1

/-- The contents the caller's `existingReadings` slice shows after
`mergeReadings` returns (same length as before; `sliceKeepOnly` wrote
kept items over its prefix in place). -/
def mergeReadingsStoredAfter (apiReadings existingReadings : List Reading) :
    List Reading :=
  (mergeReadingsFull apiReadings existingReadings).2

/-- Generic form of the ascending-by-key comparison handed to the
stable sort; `tweetLE` and `readingLE` are instances of it. -/
def keyLE {α : Type} (key : α → Int) (a b : α) : Bool :=
  decide (key a ≤ key b)

/-! ### Concrete records used to instantiate the theorems -/

def sampleTweet125 : Tweet :=
  { createdAt := 0, entities := none, favoriteCount := 0, id := 125,
    reply := none, retweet := none, retweetCount := 0, text := "a" }

def sampleTweet123 : Tweet :=
  { createdAt := 0, entities := none, favoriteCount := 0, id := 123,
    reply := none, retweet := none, retweetCount := 0, text := "c" }

/-- A fresh observation of tweet 124 whose counters drifted by 2. -/
def sampleTweetFresh : Tweet :=
  { createdAt := 0, entities := none, favoriteCount := 4, id := 124,
    reply := none, retweet := none, retweetCount := 4, text := "x" }

/-- The stored entry for tweet 124. -/
def sampleTweetStored : Tweet :=
  { createdAt := 0, entities := none, favoriteCount := 2, id := 124,
    reply := none, retweet := none, retweetCount := 2, text := "x" }

def sampleReading125 : Reading :=
  { authors := [], id := 0, isbn := "", isbn13 := "", numPages := 0,
    publishedYear := 0, readAt := 0, rating := 0, review := "new125",
    reviewID := 125, title := "" }

def sampleReading124 : Reading :=
  { authors := [], id := 0, isbn := "", isbn13 := "", numPages := 0,
    publishedYear := 0, readAt := 0, rating := 0, review := "old124",
    reviewID := 124, title := "" }

def sampleReading123old : Reading :=
  { authors := [], id := 0, isbn := "", isbn13 := "", numPages := 0,
    publishedYear := 0, readAt := 0, rating := 0, review := "old123",
    reviewID := 123, title := "" }

def sampleReading123new : Reading :=
  { authors := [], id := 0, isbn := "", isbn13 := "", numPages := 0,
    publishedYear := 0, readAt := 0, rating := 0, review := "new123",
    reviewID := 123, title := "" }

/-! ### Lemmas about the anti-churn pass -/

/-- `absInt` coincides with the mathematical absolute value. -/
theorem absInt_eq_abs (x : Int) : absInt x = |x| := by
  unfold absInt
  by_cases h : x < 0
  · rw [if_pos h, abs_of_neg h]
  · rw [if_neg h, abs_of_nonneg (by omega)]

/-- A swapped pair always has equal identifiers. -/
theorem flipShouldSwap_id {a b : Tweet} (h : flipShouldSwap a b = true) :
    a.id = b.id := by
  by_cases hid : a.id = b.id
  · exact hid
  · simp [flipShouldSwap, hid] at h

/-- Tweets with different identifiers are never swapped. -/
theorem flipShouldSwap_of_ne {a b : Tweet} (h : a.id ≠ b.id) :
    flipShouldSwap a b = false := by
  simp [flipShouldSwap, h]

/-- Given equal identifiers, the swap test is exactly the spec's
trivial-change condition: equal text, deep-equal entities, and both
counter deltas strictly below 3. -/
theorem flipShouldSwap_iff {a b : Tweet} (hid : a.id = b.id) :
    flipShouldSwap a b = true ↔
      (a.text = b.text ∧ a.entities = b.entities ∧
        |a.favoriteCount - b.favoriteCount| < 3 ∧
        |a.retweetCount - b.retweetCount| < 3) := by
  simp [flipShouldSwap, hid, absInt_eq_abs]

/-- The anti-churn pass permutes its input. -/
theorem flip_perm (l : List Tweet) :
    List.Perm (flipDuplicateTweetsOnTrivialChanges l) l := by
  induction l using flipDuplicateTweetsOnTrivialChanges.induct with
  | case1 => simp [flipDuplicateTweetsOnTrivialChanges]
  | case2 a => simp [flipDuplicateTweetsOnTrivialChanges]
  | case3 a b rest h ih =>
    rw [flipDuplicateTweetsOnTrivialChanges, if_pos h]
    exact (ih.cons b).trans (List.Perm.swap a b rest)
  | case4 a b rest h ih =>
    rw [flipDuplicateTweetsOnTrivialChanges, if_neg h]
    exact ih.cons a

/-- The anti-churn pass leaves the sequence of identifiers unchanged
(it only ever exchanges adjacent tweets with equal identifiers). -/
theorem flip_map_id (l : List Tweet) :
    (flipDuplicateTweetsOnTrivialChanges l).map (fun t => t.id) =
      l.map (fun t => t.id) := by
  induction l using flipDuplicateTweetsOnTrivialChanges.induct with
  | case1 => simp [flipDuplicateTweetsOnTrivialChanges]
  | case2 a => simp [flipDuplicateTweetsOnTrivialChanges]
  | case3 a b rest h ih =>
    rw [flipDuplicateTweetsOnTrivialChanges, if_pos h]
    have hid := flipShouldSwap_id h
    simp only [List.map_cons] at ih ⊢
    rw [ih, hid]
  | case4 a b rest h ih =>
    rw [flipDuplicateTweetsOnTrivialChanges, if_neg h]
    simp only [List.map_cons] at ih ⊢
    rw [ih]

/-- On a list with pairwise distinct identifiers the anti-churn pass is
the identity. -/
theorem flip_eq_self (l : List Tweet) :
    l.Pairwise (fun a b => a.id ≠ b.id) →
      flipDuplicateTweetsOnTrivialChanges l = l := by
  induction l using flipDuplicateTweetsOnTrivialChanges.induct with
  | case1 => intro _; simp [flipDuplicateTweetsOnTrivialChanges]
  | case2 a => intro _; simp [flipDuplicateTweetsOnTrivialChanges]
  | case3 a b rest h ih =>
    intro hp
    exact absurd (flipShouldSwap_id h) ((List.pairwise_cons.mp hp).1 b (by simp))
  | case4 a b rest h ih =>
    intro hp
    rw [flipDuplicateTweetsOnTrivialChanges, if_neg h]
    rw [ih (List.pairwise_cons.mp hp).2]

/-! ### Lemmas about `sliceUniq` -/

section SliceUniq

variable {α κ : Type} [DecidableEq κ] (key : α → κ)

/-- The dedup loop returns a sublist of its input. -/
theorem sliceUniqLoop_sublist :
    ∀ (l : List α) (seen : List κ), List.Sublist (sliceUniqLoop key l seen) l
  | [], _ => List.Sublist.refl []
  | x :: xs, seen => by
    rw [sliceUniqLoop]
    split
    · exact List.Sublist.cons x (sliceUniqLoop_sublist xs seen)
    · exact List.Sublist.cons₂ x (sliceUniqLoop_sublist xs (key x :: seen))

/-- The dedup loop emits no key twice, and never emits a key it has
already seen. -/
theorem sliceUniqLoop_keys :
    ∀ (l : List α) (seen : List κ),
      ((sliceUniqLoop key l seen).map key).Nodup ∧
        ∀ k ∈ seen, k ∉ (sliceUniqLoop key l seen).map key
  | [], seen => by simp [sliceUniqLoop]
  | x :: xs, seen => by
    rw [sliceUniqLoop]
    split
    · exact sliceUniqLoop_keys xs seen
    · rename_i hx
      obtain ⟨h1, h2⟩ := sliceUniqLoop_keys xs (key x :: seen)
      refine ⟨?_, ?_⟩
      · simp only [List.map_cons, List.nodup_cons]
        exact ⟨h2 (key x) (by simp), h1⟩
      · intro k hk
        simp only [List.map_cons, List.mem_cons]
        push_neg
        refine ⟨fun hkx => hx (hkx ▸ hk), h2 k (by simp [hk])⟩

/-- The first element carrying a not-yet-seen key is the same before
and after the dedup loop. -/
theorem sliceUniqLoop_find {k : κ} :
    ∀ (l : List α) (seen : List κ), k ∉ seen →
      (sliceUniqLoop key l seen).find? (fun x => decide (key x = k)) =
        l.find? (fun x => decide (key x = k))
  | [], _, _ => rfl
  | x :: xs, seen, hk => by
    rw [sliceUniqLoop]
    split
    · rename_i hx
      have hne : ¬ key x = k := fun h => hk (h ▸ hx)
      have hskip : (x :: xs).find? (fun y => decide (key y = k)) =
          xs.find? (fun y => decide (key y = k)) := by
        simp [List.find?_cons, hne]
      rw [hskip]
      exact sliceUniqLoop_find xs seen hk
    · rename_i hx
      by_cases hxk : key x = k
      · simp [List.find?_cons, hxk]
      · have hskip : ∀ t : List α, (x :: t).find? (fun y => decide (key y = k)) =
            t.find? (fun y => decide (key y = k)) := by
          intro t; simp [List.find?_cons, hxk]
        rw [hskip, hskip]
        refine sliceUniqLoop_find xs (key x :: seen) ?_
        simp only [List.mem_cons, not_or]
        exact ⟨fun h => hxk h.symm, hk⟩

/-- Every survivor of the dedup loop is the first occurrence of its key
in the input. -/
theorem sliceUniqLoop_first :
    ∀ (l : List α) (seen : List κ) (x : α), x ∈ sliceUniqLoop key l seen →
      key x ∉ seen ∧ l.find? (fun y => decide (key y = key x)) = some x
  | [], seen, x, hx => by simp [sliceUniqLoop] at hx
  | z :: xs, seen, x, hx => by
    rw [sliceUniqLoop] at hx
    split at hx
    · rename_i hz
      obtain ⟨h1, h2⟩ := sliceUniqLoop_first xs seen x hx
      have hne : ¬ key z = key x := fun h => h1 (h ▸ hz)
      exact ⟨h1, by rw [show ((z :: xs).find? (fun y => decide (key y = key x)) =
        xs.find? (fun y => decide (key y = key x))) from by simp [List.find?_cons, hne]]; exact h2⟩
    · rename_i hz
      rcases List.mem_cons.mp hx with rfl | hx'
      · exact ⟨hz, by simp [List.find?_cons]⟩
      · obtain ⟨h1, h2⟩ := sliceUniqLoop_first xs (key z :: seen) x hx'
        have hne : ¬ key z = key x := fun h => h1 (by simp [h])
        refine ⟨fun hs => h1 (by simp [hs]), ?_⟩
        rw [show ((z :: xs).find? (fun y => decide (key y = key x)) =
          xs.find? (fun y => decide (key y = key x))) from by simp [List.find?_cons, hne]]
        exact h2

/-- On input whose keys avoid `seen` and are pairwise distinct, the
dedup loop is the identity. -/
theorem sliceUniqLoop_eq_self :
    ∀ (l : List α) (seen : List κ), (∀ x ∈ l, key x ∉ seen) →
      (l.map key).Nodup → sliceUniqLoop key l seen = l
  | [], _, _, _ => rfl
  | x :: xs, seen, hs, hn => by
    rw [sliceUniqLoop, if_neg (hs x (by simp))]
    simp only [List.map_cons, List.nodup_cons] at hn
    congr 1
    refine sliceUniqLoop_eq_self xs (key x :: seen) ?_ hn.2
    intro y hy
    simp only [List.mem_cons]
    push_neg
    exact ⟨fun h => hn.1 (h ▸ List.mem_map_of_mem _ hy), hs y (by simp [hy])⟩

/-- `sliceUniq` output has pairwise distinct keys. -/
theorem sliceUniq_keys_nodup (l : List α) :
    ((sliceUniq key l).map key).Nodup :=
  (sliceUniqLoop_keys key l []).1

/-- `sliceUniq` output is a sublist of its input. -/
theorem sliceUniq_sublist (l : List α) : List.Sublist (sliceUniq key l) l :=
  sliceUniqLoop_sublist key l []

/-- `sliceUniq` preserves, for each key, the first element carrying it. -/
theorem sliceUniq_find (l : List α) (k : κ) :
    (sliceUniq key l).find? (fun x => decide (key x = k)) =
      l.find? (fun x => decide (key x = k)) :=
  sliceUniqLoop_find key l [] (by simp)

/-- On input with pairwise distinct keys `sliceUniq` is the identity. -/
theorem sliceUniq_eq_self {l : List α} (h : (l.map key).Nodup) :
    sliceUniq key l = l :=
  sliceUniqLoop_eq_self key l [] (by simp) h

end SliceUniq

/-! ### Lemmas about `sliceKeepOnly` -/

/-- Writing at position `j` and then taking `j + 1` elements yields the
untouched prefix followed by the written item. -/
theorem set_take_succ {α : Type} (arr : List α) (j : Nat) (item : α)
    (hj : j < arr.length) :
    (arr.set j item).take (j + 1) = arr.take j ++ [item] := by
  rw [List.set_eq_take_append_cons_drop, if_pos hj]
  have hlen : (arr.take j).length = j := List.length_take_of_le (by omega)
  rw [show j + 1 = (arr.take j).length + 1 from by rw [hlen], List.take_append]
  simp

/-- Writing strictly before the dropped prefix does not change the
dropped part. -/
theorem set_drop_of_lt {α : Type} (arr : List α) (j m : Nat) (item : α)
    (hj : j < m) :
    (arr.set j item).drop m = arr.drop m := by
  rw [List.drop_set, if_pos hj]

/-- Full characterisation of the `sliceKeepOnly` loop from state
`(arr, i, j)` with `j ≤ i`: the kept elements are the `pred`-filtered
remainder, written compactly after the first `j` positions, and the
positions past the final count keep their old contents. -/
theorem keepOnlyLoop_spec {α : Type} (pred : α → Bool) :
    ∀ (n : Nat) (arr : List α) (i j : Nat), j ≤ i → i + n = arr.length →
      keepOnlyLoop pred n arr i j =
        (arr.take j ++ (arr.drop i).filter pred ++
          arr.drop (j + ((arr.drop i).filter pred).length),
         j + ((arr.drop i).filter pred).length)
  | 0, arr, i, j, _, hlen => by
    have hi : i = arr.length := by omega
    subst hi
    simp [keepOnlyLoop]
  | n + 1, arr, i, j, hji, hlen => by
    have hi : i < arr.length := by omega
    have hdropi : arr.drop i = arr[i] :: arr.drop (i + 1) :=
      List.drop_eq_getElem_cons hi
    rw [keepOnlyLoop]
    simp only [List.getElem?_eq_getElem hi]
    by_cases hp : pred arr[i]
    · rw [if_pos hp]
      have ih := keepOnlyLoop_spec pred n (arr.set j arr[i]) (i + 1) (j + 1)
        (by omega) (by simp; omega)
      rw [ih, set_take_succ arr j arr[i] (by omega),
        set_drop_of_lt arr j (i + 1) arr[i] (by omega),
        set_drop_of_lt arr j _ arr[i] (by omega)]
      rw [hdropi, List.filter_cons_of_pos hp]
      have harith : j + ((arr[i] :: (arr.drop (i + 1)).filter pred)).length =
          j + 1 + ((arr.drop (i + 1)).filter pred).length := by
        simp; omega
      rw [harith]
      simp [List.append_assoc]
    · rw [if_neg hp]
      have ih := keepOnlyLoop_spec pred n arr (i + 1) j (by omega) (by omega)
      rw [ih, hdropi, List.filter_cons_of_neg hp]

/-- One full run of the loop: the backing array afterwards is the
filtered list, followed by the original contents past the kept count. -/
theorem sliceKeepOnlyRun_spec {α : Type} (pred : α → Bool) (arr : List α) :
    sliceKeepOnlyRun pred arr =
      (arr.filter pred ++ arr.drop (arr.filter pred).length,
        (arr.filter pred).length) := by
  have h := keepOnlyLoop_spec pred arr.length arr 0 0 (Nat.le_refl 0) (by omega)
  simpa [sliceKeepOnlyRun] using h

/-- The value `sliceKeepOnly` returns is the membership filter. -/
theorem sliceKeepOnly_eq_filter {α β κ : Type} [DecidableEq κ]
    (s1 : List α) (s2 : List β) (key1 : α → κ) (key2 : β → κ) :
    sliceKeepOnly s1 s2 key1 key2 = s1.filter (keepOnlyPred s2 key1 key2) := by
  simp only [sliceKeepOnly, sliceKeepOnlyRun_spec]
  exact List.take_left' rfl

/-- The merged list `mergeReadings` returns, written without the
in-place loop: filter the stored batch down to review identifiers still
present in the fresh batch, concatenate after the fresh batch,
stable-sort, dedup, reverse. -/
theorem mergeReadings_eq (api existing : List Reading) :
    mergeReadings api existing =
      sliceReverse (sliceUniq (fun r => r.reviewID)
        ((api ++ existing.filter
            (keepOnlyPred api (fun r => r.reviewID) (fun r => r.reviewID))).mergeSort
          readingLE)) := by
  simp only [mergeReadings, mergeReadingsFull, sliceKeepOnlyRun_spec]
  rw [List.take_left' rfl]

/-- What the caller's stored slice shows after `mergeReadings`: kept
readings compacted to the front, original tail contents beyond them. -/
theorem mergeReadingsStoredAfter_eq (api existing : List Reading) :
    mergeReadingsStoredAfter api existing =
      existing.filter (keepOnlyPred api (fun r => r.reviewID) (fun r => r.reviewID)) ++
        existing.drop
          ((existing.filter
            (keepOnlyPred api (fun r => r.reviewID) (fun r => r.reviewID))).length) := by
  simp only [mergeReadingsStoredAfter, mergeReadingsFull, sliceKeepOnlyRun_spec]

/-! ### Stable sort places a duplicated identifier's fresh entry
immediately before its stored entry -/

theorem tweetLE_eq_keyLE : tweetLE = keyLE (fun t : Tweet => t.id) := rfl

theorem readingLE_eq_keyLE : readingLE = keyLE (fun r : Reading => r.reviewID) := rfl

theorem keyLE_trans {α : Type} (key : α → Int) :
    ∀ (a b c : α), keyLE key a b → keyLE key b c → keyLE key a c := by
  intro a b c hab hbc
  simp only [keyLE, decide_eq_true_eq] at hab hbc ⊢
  omega

theorem keyLE_total {α : Type} (key : α → Int) :
    ∀ (a b : α), keyLE key a b || keyLE key b a := by
  intro a b
  simp only [keyLE, Bool.or_eq_true, decide_eq_true_eq]
  omega

/-- A two-element sublist splits the ambient list in three. -/
theorem pair_sublist_decomp {α : Type} {x y : α} :
    ∀ {s : List α}, List.Sublist [x, y] s →
      ∃ l1 l2 l3, s = l1 ++ x :: (l2 ++ y :: l3) := by
  intro s
  induction s with
  | nil => intro h; simp at h
  | cons a s' ih =>
    intro h
    cases h
    · rename_i h'
      obtain ⟨l1, l2, l3, rfl⟩ := ih h'
      exact ⟨a :: l1, l2, l3, rfl⟩
    · rename_i h'
      obtain ⟨l2, l3, rfl⟩ := List.append_of_mem (List.singleton_sublist.mp h')
      exact ⟨[], l2, l3, rfl⟩

/-- In a weakly ascending-by-key list holding exactly two elements of
key `k`, a `[x, y]` sublist of key-`k` elements is adjacent, and
everything before and after has a different key. -/
theorem sorted_pair_adjacent {α : Type} (key : α → Int) {s : List α} {x y : α}
    {k : Int} (hsort : s.Pairwise (fun a b => key a ≤ key b))
    (hsub : List.Sublist [x, y] s) (hx : key x = k) (hy : key y = k)
    (hcount : s.countP (fun z => decide (key z = k)) = 2) :
    ∃ l1 l3, s = l1 ++ x :: y :: l3 ∧
      (∀ z ∈ l1, key z ≠ k) ∧ (∀ z ∈ l3, key z ≠ k) := by
  obtain ⟨l1, l2, l3, rfl⟩ := pair_sublist_decomp hsub
  simp [List.countP_append, List.countP_cons, hx, hy] at hcount
  have hc1 : l1.countP (fun z => decide (key z = k)) = 0 := by omega
  have hc2 : l2.countP (fun z => decide (key z = k)) = 0 := by omega
  have hc3 : l3.countP (fun z => decide (key z = k)) = 0 := by omega
  have hmid := (List.pairwise_append.mp hsort).2.1
  rw [List.pairwise_cons] at hmid
  have hl2 : l2 = [] := by
    cases l2 with
    | nil => rfl
    | cons z l2' =>
      exfalso
      have hxz : key x ≤ key z := hmid.1 z (by simp)
      have h2' := List.pairwise_append.mp hmid.2
      have hzy : key z ≤ key y := h2'.2.2 z (by simp) y (by simp)
      have hzk : key z = k := by omega
      have := List.countP_eq_zero.mp hc2 z (by simp)
      simp [hzk] at this
  subst hl2
  refine ⟨l1, l3, by simp, ?_, ?_⟩
  · intro z hz
    have := List.countP_eq_zero.mp hc1 z hz
    simpa using this
  · intro z hz
    have := List.countP_eq_zero.mp hc3 z hz
    simpa using this

/-- In a batch with pairwise distinct keys, exactly one element carries
the key of a member. -/
theorem countP_key_eq_one {α : Type} (key : α → Int) :
    ∀ {l : List α}, (l.map key).Nodup → ∀ {x : α}, x ∈ l →
      l.countP (fun z => decide (key z = key x)) = 1 := by
  intro l
  induction l with
  | nil => intro _ x hx; simp at hx
  | cons y ys ih =>
    intro hn x hx
    simp only [List.map_cons, List.nodup_cons] at hn
    rcases List.mem_cons.mp hx with rfl | hx'
    · have h0 : ys.countP (fun z => decide (key z = key x)) = 0 := by
        rw [List.countP_eq_zero]
        intro a ha
        simp only [decide_eq_true_eq]
        intro hak
        exact hn.1 (hak ▸ List.mem_map_of_mem key ha)
      simp [List.countP_cons, h0]
    · have hne : ¬ key y = key x := by
        intro h
        exact hn.1 (h ▸ List.mem_map_of_mem key hx')
      rw [List.countP_cons]
      have hb : (decide (key y = key x)) = false := by simp [hne]
      simp [hb]
      exact ih hn.2 hx'

/-- Sorting the concatenation of two batches with distinct internal
keys places the fresh occurrence of a shared key immediately before the
stored occurrence, with no other element of that key anywhere. -/
theorem mergeSort_pair_decomp {α : Type} (key : α → Int)
    {fresh stored : List α} {f st : α}
    (hnf : (fresh.map key).Nodup) (hns : (stored.map key).Nodup)
    (hf : f ∈ fresh) (hst : st ∈ stored) (hk : key f = key st) :
    ∃ l1 l3, (fresh ++ stored).mergeSort (keyLE key) = l1 ++ f :: st :: l3 ∧
      (∀ z ∈ l1, key z ≠ key f) ∧ (∀ z ∈ l3, key z ≠ key f) := by
  have hsub0 : List.Sublist [f, st] (fresh ++ stored) :=
    (List.singleton_sublist.mpr hf).append (List.singleton_sublist.mpr hst)
  have hsub : List.Sublist [f, st] ((fresh ++ stored).mergeSort (keyLE key)) :=
    List.pair_sublist_mergeSort (keyLE_trans key) (keyLE_total key)
      (by simp [keyLE, hk]) hsub0
  have hsorted : ((fresh ++ stored).mergeSort (keyLE key)).Pairwise
      (fun a b => key a ≤ key b) := by
    have h := List.sorted_mergeSort (keyLE_trans key) (keyLE_total key)
      (fresh ++ stored)
    exact h.imp (fun hab => by simpa [keyLE] using hab)
  have hcs : stored.countP (fun z => decide (key z = key f)) = 1 := by
    have h := countP_key_eq_one key hns hst
    rw [← hk] at h
    exact h
  have hcount : ((fresh ++ stored).mergeSort (keyLE key)).countP
      (fun z => decide (key z = key f)) = 2 := by
    rw [(List.mergeSort_perm (fresh ++ stored) (keyLE key)).countP_eq]
    rw [List.countP_append, countP_key_eq_one key hnf hf, hcs]
  exact sorted_pair_adjacent key hsorted hsub rfl hk.symm hcount

/-- `find?` by key selects the head of the matching block in a
decomposition whose prefix is free of the key. -/
theorem find?_first_of_decomp {α : Type} (key : α → Int) {k : Int} (x : α)
    (hx : key x = k) (t : List α) :
    ∀ (l1 : List α), (∀ z ∈ l1, key z ≠ k) →
      (l1 ++ x :: t).find? (fun z => decide (key z = k)) = some x
  | [], _ => by simp [List.find?_cons, hx]
  | a :: l1', h1 => by
    simp only [List.cons_append]
    have ha : ¬ key a = k := h1 a (by simp)
    rw [show (a :: (l1' ++ x :: t)).find? (fun z => decide (key z = k)) =
        (l1' ++ x :: t).find? (fun z => decide (key z = k)) from by
      simp [List.find?_cons, ha]]
    exact find?_first_of_decomp key x hx t l1' (fun z hz => h1 z (by simp [hz]))

/-! ### The anti-churn pass at the adjacent duplicated pair -/

/-- When the duplicated pair sits at the front, the first element with
its identifier after the anti-churn pass is the stored entry if the
pair was swapped, the fresh entry otherwise. -/
theorem flip_find_base {k : Int} (f st : Tweet) (hf : f.id = k) (hst : st.id = k)
    (l2 : List Tweet) :
    (flipDuplicateTweetsOnTrivialChanges (f :: st :: l2)).find?
        (fun x => decide (x.id = k)) =
      some (if flipShouldSwap f st then st else f) := by
  rw [flipDuplicateTweetsOnTrivialChanges]
  by_cases h : flipShouldSwap f st
  · rw [if_pos h, if_pos h]
    simp [List.find?_cons, hst]
  · rw [if_neg h, if_neg h]
    simp [List.find?_cons, hf]

/-- General form: an identifier-free prefix may be shuffled arbitrarily
by the pass, but the first element carrying the duplicated identifier
is still decided by the swap test on the pair. -/
theorem flip_find {k : Int} (f st : Tweet) (hf : f.id = k) (hst : st.id = k)
    (l2 : List Tweet) :
    ∀ (l1 : List Tweet), (∀ z ∈ l1, z.id ≠ k) →
      (flipDuplicateTweetsOnTrivialChanges (l1 ++ f :: st :: l2)).find?
          (fun x => decide (x.id = k)) =
        some (if flipShouldSwap f st then st else f)
  | [], _ => flip_find_base f st hf hst l2
  | [a], h1 => by
    have ha : a.id ≠ k := h1 a (by simp)
    simp only [List.cons_append, List.nil_append]
    rw [flipDuplicateTweetsOnTrivialChanges,
      if_neg (by simp [flipShouldSwap_of_ne (show a.id ≠ f.id from by rw [hf]; exact ha)])]
    rw [show (a :: flipDuplicateTweetsOnTrivialChanges (f :: st :: l2)).find?
          (fun x => decide (x.id = k)) =
        (flipDuplicateTweetsOnTrivialChanges (f :: st :: l2)).find?
          (fun x => decide (x.id = k)) from by simp [List.find?_cons, ha]]
    exact flip_find_base f st hf hst l2
  | a :: b :: l1', h1 => by
    simp only [List.cons_append]
    rw [flipDuplicateTweetsOnTrivialChanges]
    have hmem : ∀ (c : Tweet), c ∈ ([a, b] : List Tweet) →
        ∀ z ∈ c :: l1', z.id ≠ k := by
      intro c hc z hz
      apply h1 z
      simp only [List.mem_cons] at hc hz ⊢
      rcases hz with rfl | hz'
      · rcases hc with rfl | hc'
        · exact Or.inl rfl
        · simp at hc'
          exact Or.inr (Or.inl hc')
      · exact Or.inr (Or.inr hz')
    by_cases hsw : flipShouldSwap a b
    · rw [if_pos hsw]
      have hb : b.id ≠ k := h1 b (by simp)
      rw [show (b :: flipDuplicateTweetsOnTrivialChanges
            (a :: (l1' ++ f :: st :: l2))).find? (fun x => decide (x.id = k)) =
          (flipDuplicateTweetsOnTrivialChanges
            (a :: (l1' ++ f :: st :: l2))).find? (fun x => decide (x.id = k)) from by
        simp [List.find?_cons, hb]]
      have h := flip_find f st hf hst l2 (a :: l1') (hmem a (by simp))
      simpa only [List.cons_append] using h
    · rw [if_neg hsw]
      have ha : a.id ≠ k := h1 a (by simp)
      rw [show (a :: flipDuplicateTweetsOnTrivialChanges
            (b :: (l1' ++ f :: st :: l2))).find? (fun x => decide (x.id = k)) =
          (flipDuplicateTweetsOnTrivialChanges
            (b :: (l1' ++ f :: st :: l2))).find? (fun x => decide (x.id = k)) from by
        simp [List.find?_cons, ha]]
      have h := flip_find f st hf hst l2 (b :: l1') (hmem b (by simp))
      simpa only [List.cons_append] using h
termination_by l1 _ => l1.length

/-! ### The dedup-and-reverse tail of both reconcilers -/

/-- If `w` is the first element of the working list carrying key `k`,
then after dedup and reversal `w` is in the output and is the only
output element carrying `k`. -/
theorem uniq_reverse_find {α : Type} (key : α → Int) (s2 : List α) {k : Int}
    {w : α} (hfind : s2.find? (fun x => decide (key x = k)) = some w) :
    w ∈ sliceReverse (sliceUniq key s2) ∧
      ∀ x ∈ sliceReverse (sliceUniq key s2), key x = k → x = w := by
  have hfind2 : (sliceUniq key s2).find? (fun x => decide (key x = k)) = some w :=
    (sliceUniq_find key s2 k).trans hfind
  have hw_mem : w ∈ sliceUniq key s2 := List.mem_of_find?_eq_some hfind2
  have hw_key : key w = k := by
    have h := List.find?_some hfind2
    simpa using h
  refine ⟨by simpa [sliceReverse] using hw_mem, ?_⟩
  intro x hx hxk
  rw [sliceReverse, List.mem_reverse] at hx
  exact List.inj_on_of_nodup_map (sliceUniq_keys_nodup key s2) hx hw_mem
    (by rw [hxk, hw_key])

/-- Dedupping a weakly ascending-by-key list and reversing yields
pairwise distinct keys in strictly descending order. -/
theorem uniq_reverse_spec {α : Type} (key : α → Int) (s : List α)
    (hs : s.Pairwise (fun a b => key a ≤ key b)) :
    ((sliceReverse (sliceUniq key s)).map key).Nodup ∧
      (sliceReverse (sliceUniq key s)).Pairwise (fun a b => key b < key a) := by
  have hnd : ((sliceUniq key s).map key).Nodup := sliceUniq_keys_nodup key s
  have hsort : (sliceUniq key s).Pairwise (fun a b => key a ≤ key b) :=
    hs.sublist (sliceUniq_sublist key s)
  have hne : (sliceUniq key s).Pairwise (fun a b => key a ≠ key b) :=
    List.pairwise_map.mp hnd
  have hstrict : (sliceUniq key s).Pairwise (fun a b => key a < key b) :=
    (hsort.and hne).imp (fun h => lt_of_le_of_ne h.1 h.2)
  constructor
  · rw [sliceReverse, List.map_reverse, List.nodup_reverse]
    exact hnd
  · rw [sliceReverse, List.pairwise_reverse]
    exact hstrict

/-- The working list of `mergeTweets` (sorted then anti-churn passed)
is weakly ascending by identifier. -/
theorem flip_mergeSort_sorted (l : List Tweet) :
    (flipDuplicateTweetsOnTrivialChanges (l.mergeSort tweetLE)).Pairwise
      (fun a b => a.id ≤ b.id) := by
  have hs : (l.mergeSort tweetLE).Pairwise (fun a b : Tweet => a.id ≤ b.id) := by
    have h := List.sorted_mergeSort
      (keyLE_trans (fun t : Tweet => t.id)) (keyLE_total (fun t : Tweet => t.id)) l
    exact h.imp (fun hab => by simpa [keyLE] using hab)
  have h2 : ((flipDuplicateTweetsOnTrivialChanges (l.mergeSort tweetLE)).map
      (fun t => t.id)).Pairwise (fun a b => a ≤ b) := by
    rw [flip_map_id]
    exact List.pairwise_map.mpr hs
  exact List.pairwise_map.mp h2

/-- The working list of `mergeReadings` (sorted) is weakly ascending by
review identifier. -/
theorem readings_mergeSort_sorted (l : List Reading) :
    (l.mergeSort readingLE).Pairwise (fun a b => a.reviewID ≤ b.reviewID) := by
  have h := List.sorted_mergeSort
    (keyLE_trans (fun r : Reading => r.reviewID))
    (keyLE_total (fun r : Reading => r.reviewID)) l
  exact h.imp (fun hab => by simpa [keyLE] using hab)

/-! ### The claims -/

/-- C1: for duplicate-free tweet batches sharing an identifier,
`mergeTweets` retains the stored entry exactly when the two entries
have equal text, deep-equal entities, and both counter deltas strictly
below 3; in every other case it retains the fresh entry. -/
theorem mergeTweets_duplicate_resolution
    (fresh stored : List Tweet)
    (hnf : (fresh.map (fun t => t.id)).Nodup)
    (hns : (stored.map (fun t => t.id)).Nodup)
    (f st : Tweet) (hf : f ∈ fresh) (hst : st ∈ stored) (hid : f.id = st.id) :
    ((f.text = st.text ∧ f.entities = st.entities ∧
        |f.favoriteCount - st.favoriteCount| < 3 ∧
        |f.retweetCount - st.retweetCount| < 3) →
      st ∈ mergeTweets fresh stored ∧
        ∀ x ∈ mergeTweets fresh stored, x.id = st.id → x = st) ∧
    (¬ (f.text = st.text ∧ f.entities = st.entities ∧
        |f.favoriteCount - st.favoriteCount| < 3 ∧
        |f.retweetCount - st.retweetCount| < 3) →
      f ∈ mergeTweets fresh stored ∧
        ∀ x ∈ mergeTweets fresh stored, x.id = f.id → x = f) := by
  obtain ⟨l1, l3, hdec, hfree1, hfree3⟩ :=
    mergeSort_pair_decomp (fun t : Tweet => t.id) hnf hns hf hst hid
  have hfind : (flipDuplicateTweetsOnTrivialChanges
      ((fresh ++ stored).mergeSort tweetLE)).find?
      (fun x => decide (x.id = f.id)) =
      some (if flipShouldSwap f st then st else f) := by
    rw [tweetLE_eq_keyLE, hdec]
    exact flip_find f st rfl hid.symm l3 l1 hfree1
  have hmain : (if flipShouldSwap f st then st else f) ∈ mergeTweets fresh stored ∧
      ∀ x ∈ mergeTweets fresh stored, x.id = f.id →
        x = (if flipShouldSwap f st then st else f) :=
    uniq_reverse_find (fun t : Tweet => t.id) _ hfind
  constructor
  · intro hcond
    have hsw : flipShouldSwap f st = true := (flipShouldSwap_iff hid).mpr hcond
    rw [if_pos hsw] at hmain
    exact ⟨hmain.1, fun x hx hxid => hmain.2 x hx (hxid.trans hid.symm)⟩
  · intro hcond
    have hsw : ¬ flipShouldSwap f st = true :=
      fun h => hcond ((flipShouldSwap_iff hid).mp h)
    rw [if_neg hsw] at hmain
    exact hmain

/-- C1 witness: fresh and stored observations of tweet 124 differ only
by counter deltas of 2, so the stored entry survives the merge. -/
theorem mergeTweets_duplicate_resolution_witness :
    sampleTweetStored ∈
        mergeTweets [sampleTweet125, sampleTweetFresh]
          [sampleTweetStored, sampleTweet123] ∧
      ∀ x ∈ mergeTweets [sampleTweet125, sampleTweetFresh]
          [sampleTweetStored, sampleTweet123],
        x.id = sampleTweetStored.id → x = sampleTweetStored :=
  (mergeTweets_duplicate_resolution
      [sampleTweet125, sampleTweetFresh] [sampleTweetStored, sampleTweet123]
      (by decide) (by decide) sampleTweetFresh sampleTweetStored
      (by decide) (by decide) (by decide)).1 (by decide)

/-- C2: a stored reading whose review identifier does not occur in the
fresh batch is absent from `mergeReadings` output (deletion
propagation). -/
theorem mergeReadings_deletion_propagation
    (fresh stored : List Reading)
    (hnf : (fresh.map (fun r => r.reviewID)).Nodup)
    (hns : (stored.map (fun r => r.reviewID)).Nodup)
    (st : Reading) (hst : st ∈ stored)
    (habs : st.reviewID ∉ fresh.map (fun r => r.reviewID)) :
    st ∉ mergeReadings fresh stored := by
  intro hmem
  rw [mergeReadings_eq, sliceReverse, List.mem_reverse] at hmem
  have hmem2 : st ∈ (fresh ++ stored.filter
      (keepOnlyPred fresh (fun r => r.reviewID) (fun r => r.reviewID))).mergeSort
        readingLE :=
    (sliceUniq_sublist (fun r => r.reviewID) _).subset hmem
  rw [List.mem_mergeSort, List.mem_append] at hmem2
  rcases hmem2 with hm | hm
  · exact habs (List.mem_map_of_mem (fun r => r.reviewID) hm)
  · have hp := (List.mem_filter.mp hm).2
    simp only [keepOnlyPred, decide_eq_true_eq] at hp
    exact habs hp

/-- C2 witness: reading 124 is stored but missing from the fresh batch,
so it is dropped. -/
theorem mergeReadings_deletion_propagation_witness :
    sampleReading124 ∉
      mergeReadings [sampleReading125, sampleReading123new]
        [sampleReading124, sampleReading123old] :=
  mergeReadings_deletion_propagation
    [sampleReading125, sampleReading123new]
    [sampleReading124, sampleReading123old]
    (by decide) (by decide) sampleReading124 (by decide) (by decide)

/-- C3: `mergeTweets` performs no deletion propagation: every stored
identifier occurs in the output. -/
theorem mergeTweets_no_deletion
    (fresh stored : List Tweet)
    (hnf : (fresh.map (fun t => t.id)).Nodup)
    (hns : (stored.map (fun t => t.id)).Nodup)
    (st : Tweet) (hst : st ∈ stored) :
    ∃ y ∈ mergeTweets fresh stored, y.id = st.id := by
  have h1 : st ∈ (fresh ++ stored).mergeSort tweetLE :=
    List.mem_mergeSort.mpr (by simp [hst])
  have h2 : st ∈ flipDuplicateTweetsOnTrivialChanges
      ((fresh ++ stored).mergeSort tweetLE) :=
    (flip_perm _).mem_iff.mpr h1
  have h3 : ((flipDuplicateTweetsOnTrivialChanges
      ((fresh ++ stored).mergeSort tweetLE)).find?
      (fun x => decide (x.id = st.id))).isSome :=
    List.find?_isSome.mpr ⟨st, h2, by simp⟩
  obtain ⟨w, hw⟩ := Option.isSome_iff_exists.mp h3
  have hmain := uniq_reverse_find (fun t : Tweet => t.id) _ hw
  have hw_id : w.id = st.id := by
    have h := List.find?_some hw
    simpa using h
  exact ⟨w, hmain.1, hw_id⟩

/-- C3 witness: stored tweet 123 is missing from the fresh window yet
its identifier survives the merge. -/
theorem mergeTweets_no_deletion_witness :
    ∃ y ∈ mergeTweets [sampleTweet125, sampleTweetFresh]
        [sampleTweetStored, sampleTweet123],
      y.id = sampleTweet123.id :=
  mergeTweets_no_deletion
    [sampleTweet125, sampleTweetFresh] [sampleTweetStored, sampleTweet123]
    (by decide) (by decide) sampleTweet123 (by decide)

/-- C4: for duplicate-free reading batches sharing a review identifier,
the output entry carrying it is the fresh batch's entry. -/
theorem mergeReadings_fresh_wins
    (fresh stored : List Reading)
    (hnf : (fresh.map (fun r => r.reviewID)).Nodup)
    (hns : (stored.map (fun r => r.reviewID)).Nodup)
    (f st : Reading) (hf : f ∈ fresh) (hst : st ∈ stored)
    (hid : f.reviewID = st.reviewID) :
    f ∈ mergeReadings fresh stored ∧
      ∀ x ∈ mergeReadings fresh stored, x.reviewID = f.reviewID → x = f := by
  have hpred : keepOnlyPred fresh (fun r => r.reviewID) (fun r => r.reviewID) st
      = true := by
    simp only [keepOnlyPred, decide_eq_true_eq, List.mem_map]
    exact ⟨f, hf, hid⟩
  have hst' : st ∈ stored.filter
      (keepOnlyPred fresh (fun r => r.reviewID) (fun r => r.reviewID)) :=
    List.mem_filter.mpr ⟨hst, hpred⟩
  have hns' : ((stored.filter
      (keepOnlyPred fresh (fun r => r.reviewID) (fun r => r.reviewID))).map
        (fun r => r.reviewID)).Nodup :=
    List.Nodup.sublist ((List.filter_sublist stored).map _) hns
  obtain ⟨l1, l3, hdec, hfree1, _⟩ :=
    mergeSort_pair_decomp (fun r : Reading => r.reviewID) hnf hns' hf hst' hid
  have hfind : ((fresh ++ stored.filter
      (keepOnlyPred fresh (fun r => r.reviewID) (fun r => r.reviewID))).mergeSort
        readingLE).find? (fun x => decide (x.reviewID = f.reviewID)) = some f := by
    rw [readingLE_eq_keyLE, hdec]
    exact find?_first_of_decomp (fun r : Reading => r.reviewID) f rfl (st :: l3)
      l1 hfree1
  have hmain := uniq_reverse_find (fun r : Reading => r.reviewID) _ hfind
  rw [mergeReadings_eq]
  exact hmain

/-- C4 witness: both batches hold review 123; the fresh copy wins. -/
theorem mergeReadings_fresh_wins_witness :
    sampleReading123new ∈
        mergeReadings [sampleReading125, sampleReading123new]
          [sampleReading124, sampleReading123old] ∧
      ∀ x ∈ mergeReadings [sampleReading125, sampleReading123new]
          [sampleReading124, sampleReading123old],
        x.reviewID = sampleReading123new.reviewID → x = sampleReading123new :=
  mergeReadings_fresh_wins
    [sampleReading125, sampleReading123new]
    [sampleReading124, sampleReading123old]
    (by decide) (by decide) sampleReading123new sampleReading123old
    (by decide) (by decide) (by decide)

/-- C5: for duplicate-free inputs, the outputs of `mergeReadings` and
`mergeTweets` are duplicate-free by identifier and strictly descending
by identifier. -/
theorem merge_outputs_nodup_descending
    (freshT storedT : List Tweet) (freshR storedR : List Reading)
    (h1 : (freshT.map (fun t => t.id)).Nodup)
    (h2 : (storedT.map (fun t => t.id)).Nodup)
    (h3 : (freshR.map (fun r => r.reviewID)).Nodup)
    (h4 : (storedR.map (fun r => r.reviewID)).Nodup) :
    (((mergeTweets freshT storedT).map (fun t => t.id)).Nodup ∧
      (mergeTweets freshT storedT).Pairwise (fun a b => b.id < a.id)) ∧
    (((mergeReadings freshR storedR).map (fun r => r.reviewID)).Nodup ∧
      (mergeReadings freshR storedR).Pairwise
        (fun a b => b.reviewID < a.reviewID)) := by
  constructor
  · exact uniq_reverse_spec (fun t : Tweet => t.id) _
      (flip_mergeSort_sorted (freshT ++ storedT))
  · rw [mergeReadings_eq]
    exact uniq_reverse_spec (fun r : Reading => r.reviewID) _
      (readings_mergeSort_sorted _)

/-- C5 witness at concrete duplicate-free batches. -/
theorem merge_outputs_nodup_descending_witness :
    (((mergeTweets [sampleTweet125, sampleTweetFresh]
        [sampleTweetStored, sampleTweet123]).map (fun t => t.id)).Nodup ∧
      (mergeTweets [sampleTweet125, sampleTweetFresh]
        [sampleTweetStored, sampleTweet123]).Pairwise (fun a b => b.id < a.id)) ∧
    (((mergeReadings [sampleReading125, sampleReading123new]
        [sampleReading124, sampleReading123old]).map
          (fun r => r.reviewID)).Nodup ∧
      (mergeReadings [sampleReading125, sampleReading123new]
        [sampleReading124, sampleReading123old]).Pairwise
        (fun a b => b.reviewID < a.reviewID)) :=
  merge_outputs_nodup_descending
    [sampleTweet125, sampleTweetFresh] [sampleTweetStored, sampleTweet123]
    [sampleReading125, sampleReading123new]
    [sampleReading124, sampleReading123old]
    (by decide) (by decide) (by decide) (by decide)

/-- C6: re-merging a `mergeTweets` result with an empty stored batch
returns it unchanged in content and order. -/
theorem mergeTweets_idempotent (fresh stored : List Tweet) :
    mergeTweets (mergeTweets fresh stored) [] = mergeTweets fresh stored := by
  have hspec := uniq_reverse_spec (fun t : Tweet => t.id) _
    (flip_mergeSort_sorted (fresh ++ stored))
  have hnd : ((mergeTweets fresh stored).map (fun t => t.id)).Nodup := hspec.1
  have hdesc : (mergeTweets fresh stored).Pairwise (fun a b => b.id < a.id) :=
    hspec.2
  have hasc : (mergeTweets fresh stored).reverse.Pairwise
      (fun a b : Tweet => a.id < b.id) := by
    rw [List.pairwise_reverse]
    exact hdesc
  have hsort : ((mergeTweets fresh stored) ++ []).mergeSort tweetLE =
      (mergeTweets fresh stored).reverse := by
    rw [List.append_nil]
    have hperm : List.Perm ((mergeTweets fresh stored).mergeSort tweetLE)
        (mergeTweets fresh stored).reverse :=
      (List.mergeSort_perm (mergeTweets fresh stored) tweetLE).trans
        (List.reverse_perm (mergeTweets fresh stored)).symm
    have hs1 : ((mergeTweets fresh stored).mergeSort tweetLE).Pairwise
        (fun a b : Tweet => a.id ≤ b.id) := by
      have h := List.sorted_mergeSort
        (keyLE_trans (fun t : Tweet => t.id))
        (keyLE_total (fun t : Tweet => t.id)) (mergeTweets fresh stored)
      exact h.imp (fun hab => by simpa [keyLE] using hab)
    have hnd1 : (((mergeTweets fresh stored).mergeSort tweetLE).map
        (fun t => t.id)).Nodup :=
      (((List.mergeSort_perm (mergeTweets fresh stored) tweetLE).map
        (fun t => t.id)).nodup_iff).mpr hnd
    have hstrict1 : ((mergeTweets fresh stored).mergeSort tweetLE).Pairwise
        (fun a b : Tweet => a.id < b.id) :=
      (hs1.and (List.pairwise_map.mp hnd1)).imp
        (fun h => lt_of_le_of_ne h.1 h.2)
    haveI : IsAntisymm Tweet (fun a b : Tweet => a.id < b.id) :=
      ⟨fun a b ha hb => absurd (ha.trans hb) (lt_irrefl _)⟩
    exact List.eq_of_perm_of_sorted hperm hstrict1 hasc
  have hrevnd : ((mergeTweets fresh stored).reverse.map (fun t => t.id)).Nodup := by
    rw [List.map_reverse, List.nodup_reverse]
    exact hnd
  have hunfold : mergeTweets (mergeTweets fresh stored) [] =
      sliceReverse (sliceUniq (fun t => t.id)
        (flipDuplicateTweetsOnTrivialChanges
          (((mergeTweets fresh stored) ++ []).mergeSort tweetLE))) := rfl
  rw [hunfold, hsort, flip_eq_self (mergeTweets fresh stored).reverse
      (hasc.imp (fun h => ne_of_lt h)),
    sliceUniq_eq_self (fun t : Tweet => t.id) hrevnd]
  simp [sliceReverse]

/-- C7 counterexample: `mergeReadings` observably mutates the caller's
stored collection.  With fresh `[{123}]` and stored `[{124}, {123}]`,
`sliceKeepOnly` compacts the kept reading 123 over position 0 in place,
so the caller's stored slice afterwards reads `[{123}, {123}]`. -/
theorem mergeReadings_mutates_stored :
    mergeReadingsStoredAfter [sampleReading123new]
        [sampleReading124, sampleReading123old] ≠
      [sampleReading124, sampleReading123old] := by decide

/-- C7 (amended): `mergeReadings` rebuilds its result on a working copy,
but `sliceKeepOnly` compacts the kept stored entries in place, so the
caller's stored collection afterwards shows the kept entries followed by
its original tail (same length); it is unchanged only when that
compaction is the identity. -/
theorem mergeReadings_stored_after_characterisation
    (api existing : List Reading) :
    mergeReadingsStoredAfter api existing =
      existing.filter
          (keepOnlyPred api (fun r => r.reviewID) (fun r => r.reviewID)) ++
        existing.drop
          ((existing.filter
            (keepOnlyPred api (fun r => r.reviewID)
              (fun r => r.reviewID))).length) ∧
      (mergeReadingsStoredAfter api existing).length = existing.length := by
  refine ⟨mergeReadingsStoredAfter_eq api existing, ?_⟩
  rw [mergeReadingsStoredAfter_eq, List.length_append, List.length_drop]
  have h := List.length_filter_le
    (keepOnlyPred api (fun r => r.reviewID) (fun r => r.reviewID)) existing
  omega

/-- C8: the unique-by-key filter emits no key twice, returns a sublist
of its input (preserving relative order), and every survivor is the
first occurrence of its key. -/
theorem sliceUniq_nodup_first_occurrence {α κ : Type} [DecidableEq κ]
    (key : α → κ) (l : List α) :
    ((sliceUniq key l).map key).Nodup ∧
      List.Sublist (sliceUniq key l) l ∧
      ∀ x ∈ sliceUniq key l, l.find? (fun y => decide (key y = key x)) = some x :=
  ⟨sliceUniq_keys_nodup key l, sliceUniq_sublist key l,
    fun x hx => (sliceUniqLoop_first key l [] x hx).2⟩

/-- C9: the membership filter returns an order-preserving subsequence
of the primary list holding exactly the elements whose key occurs among
the reference list's keys. -/
theorem sliceKeepOnly_subsequence_exact {α β κ : Type} [DecidableEq κ]
    (s1 : List α) (s2 : List β) (key1 : α → κ) (key2 : β → κ) :
    List.Sublist (sliceKeepOnly s1 s2 key1 key2) s1 ∧
      sliceKeepOnly s1 s2 key1 key2 =
        s1.filter (fun x => decide (key1 x ∈ s2.map key2)) := by
  constructor
  · rw [sliceKeepOnly_eq_filter]
    exact List.filter_sublist s1
  · exact sliceKeepOnly_eq_filter s1 s2 key1 key2

/-- C10: the anti-churn pass permutes its input, and preserves
ascending-by-identifier sortedness because it only swaps adjacent
equal-identifier pairs. -/
theorem flip_permutes_and_preserves_sorted (l : List Tweet) :
    List.Perm (flipDuplicateTweetsOnTrivialChanges l) l ∧
      (l.Pairwise (fun a b => a.id ≤ b.id) →
        (flipDuplicateTweetsOnTrivialChanges l).Pairwise
          (fun a b => a.id ≤ b.id)) := by
  refine ⟨flip_perm l, fun h => ?_⟩
  have h2 : ((flipDuplicateTweetsOnTrivialChanges l).map (fun t => t.id)).Pairwise
      (fun a b => a ≤ b) := by
    rw [flip_map_id]
    exact List.pairwise_map.mpr h
  exact List.pairwise_map.mp h2

/-- C10 witness at a sorted list containing an equal-identifier pair
that the pass actually swaps. -/
theorem flip_permutes_and_preserves_sorted_witness :
    List.Perm (flipDuplicateTweetsOnTrivialChanges
        [sampleTweet123, sampleTweetStored, sampleTweetFresh])
      [sampleTweet123, sampleTweetStored, sampleTweetFresh] ∧
    ([sampleTweet123, sampleTweetStored, sampleTweetFresh] : List Tweet).Pairwise
        (fun a b => a.id ≤ b.id) ∧
    (flipDuplicateTweetsOnTrivialChanges
        [sampleTweet123, sampleTweetStored, sampleTweetFresh]).Pairwise
      (fun a b => a.id ≤ b.id) :=
  ⟨(flip_permutes_and_preserves_sorted _).1, by decide,
    (flip_permutes_and_preserves_sorted _).2 (by decide)⟩

end Qself
